import Mathlib

/-!
# ColumnsDescription

A shallow embedding of `dbms/src/Storages/ColumnsDescription.h`: the column
descriptor, the `boost::multi_index_container` that stores the descriptors
(a sequenced index for declaration order plus an `ordered_unique` index on
`name`), the inline member `modify`, and `operator==` / `operator!=`.

The header only declares `add`, `remove`, `rename`, `has`, `hasNested` and the
`get*` views; their definitions here follow the written specification and are
marked as such.
-/

namespace DB

/-! ## Data model -/

/-- Modelled from the spec: the type `ColumnDefault` comes from
`Storages/ColumnDefault.h`, which is not part of the sources. The specification
gives `default_kind` as one of None, Default(expr), Materialized(expr),
Alias(expr), the expression being externally represented (here: its text). -/
inductive ColumnDefault where
  | None
  | Default (expression : String)
  | Materialized (expression : String)
  | Alias (expression : String)
  deriving DecidableEq, Repr

/-- Description of a single table column (`struct ColumnDescription`).
`DataTypePtr`, `CompressionCodecPtr` and `ASTPtr` point to externally defined
objects; they are represented by the name / text of the object, a null pointer
by `none`. -/
structure ColumnDescription where
  name : String
  type : String
  default_desc : ColumnDefault := ColumnDefault.None
  comment : String := ""
  codec : Option String := none
  ttl : Option String := none
  is_virtual : Bool := false
  deriving DecidableEq, Repr

/-- `ColumnsDescription::Container`: the elements in the order of the
`sequenced<>` index (index 0). The `ordered_unique` index on `name` (index 1)
holds no data of its own; it shows in `Container.find` and in the collision
check of `Container.modify`. -/
abbrev Container := List ColumnDescription

/-- `class ColumnsDescription`: its only data member is `columns`. -/
abbrev ColumnsDescription := Container

/-- The failures of the mutation protocol. Both `throw` statements of
`ColumnsDescription::modify` carry `ErrorCodes::LOGICAL_ERROR`; they are told
apart by their message: "Cannot find column ..." is `NotFound`,
"... column name cannot be changed" is `ImmutableKeyViolation`. -/
inductive ErrorKind where
  | NotFound
  | DuplicateName
  | ImmutableKeyViolation
  deriving DecidableEq, Repr

/-- State of the container after a call, and the exception the call threw
(`none` when it returned normally). -/
structure Outcome where
  columns : Container
  thrown : Option ErrorKind
  deriving DecidableEq, Repr

/-- Outcome of `modify`: as `Outcome`, plus the descriptors the callable `f`
was invoked on, in call order. -/
structure ModifyOutcome where
  columns : Container
  thrown : Option ErrorKind
  applied : List ColumnDescription
  deriving DecidableEq, Repr

/-! ## The container (Boost.MultiIndex) -/

/-- `columns.get<1>().find(key)`: lookup in the `ordered_unique` index on
`name`. Returns the position of the element in the sequence, `none` for
`end()`. -/
def Container.find : Container → String → Option Nat
  | [], _ => none
  | c :: rest, key =>
    if c.name = key then some 0 else (Container.find rest key).map (· + 1)

/-- `columns.get<1>().modify(it, f)` of Boost.MultiIndex, one-argument form
(no rollback functor): calls `f` on the element at `it`, then rearranges the
element in every index. In the `ordered_unique` index on `name` the
rearrangement succeeds iff no other element has an equivalent key; in the
sequenced index the element keeps its position. If the rearrangement fails the
element is erased. Returns the container, whether the operation succeeded, and
the element `f` was called on. -/
def Container.modify (columns : Container) (it : Nat)
    (f : ColumnDescription → ColumnDescription) :
    Container × Bool × List ColumnDescription :=
  match columns[it]? with
  | none => (columns, false, [])
  | some e =>
    let e2 := f e
    let others := columns.eraseIdx it
    if others.any (fun c => decide (c.name = e2.name)) then (others, false, [e])
    else (columns.set it e2, true, [e])

/-- `ColumnsDescription::modify(column_name, f)`. -/
def ColumnsDescription.modify (columns : ColumnsDescription) (column_name : String)
    (f : ColumnDescription → ColumnDescription) : ModifyOutcome :=
  match Container.find columns column_name with
  | none => { columns := columns, thrown := some ErrorKind.NotFound, applied := [] }
  | some it =>
    match Container.modify columns it f with
    | (columns2, false, calls) =>
      { columns := columns2, thrown := some ErrorKind.ImmutableKeyViolation, applied := calls }
    | (columns2, true, calls) =>
      { columns := columns2, thrown := none, applied := calls }

/-- `std::equal(first1, last1, first2)` with the element comparison `deq`. -/
def stdEqual (deq : ColumnDescription → ColumnDescription → Bool) :
    List ColumnDescription → List ColumnDescription → Bool
  | [], _ => true
  | _ :: _, [] => false
  | x :: xs, y :: ys => deq x y && stdEqual deq xs ys

/-- `ColumnsDescription::operator==`: `columns == other.columns`. Equality of
two `multi_index_container`s is equality of their index 0; for a sequenced
index that is `x.size() == y.size() && std::equal(x.begin(), x.end(), y.begin())`.
The element comparison `ColumnDescription::operator==` is only declared in the
header, so it is the parameter `deq`. -/
def ColumnsDescription.eq (deq : ColumnDescription → ColumnDescription → Bool)
    (a b : ColumnsDescription) : Bool :=
  decide (a.length = b.length) && stdEqual deq a b

/-- `ColumnsDescription::operator!=`: `!(*this == other)`. -/
def ColumnsDescription.ne (deq : ColumnDescription → ColumnDescription → Bool)
    (a b : ColumnsDescription) : Bool :=
  !(ColumnsDescription.eq deq a b)

/-- The names stored in the container, in declaration order. -/
def Container.names (columns : Container) : List String :=
  columns.map (fun c => c.name)

/-- No two stored descriptors have equal names. -/
def NamesUnique (columns : Container) : Prop :=
  (Container.names columns).Nodup

instance (columns : Container) : Decidable (NamesUnique columns) := by
  unfold NamesUnique; infer_instance

/-! ## Operations that the header only declares -/

/-- Modelled from the spec: nested-group membership is purely name-based; the
name `name` is a member of the group `group` when it starts with `group.`
(the group name followed by a dot). -/
def inGroup (name group : String) : Bool :=
  (group ++ ".").toList.isPrefixOf name.toList

/-- Modelled from the spec: `ColumnsDescription::has` is only declared.
Exact-name membership test. -/
def ColumnsDescription.has (columns : ColumnsDescription) (column_name : String) : Bool :=
  (Container.find columns column_name).isSome

/-- Modelled from the spec: `ColumnsDescription::hasNested` is only declared.
True if `column_name` matches exactly or is a group prefix (some column named
`column_name.*` exists). -/
def ColumnsDescription.hasNested (columns : ColumnsDescription) (column_name : String) : Bool :=
  ColumnsDescription.has columns column_name
    || columns.any (fun c => inGroup c.name column_name)

/-- Position right after the last column that is a member of `group`, `none`
when the group has no member. -/
def groupEnd : Container → String → Option Nat
  | [], _ => none
  | c :: rest, group =>
    match groupEnd rest group with
    | some k => some (k + 1)
    | none => if inGroup c.name group then some 1 else none

/-- Insertion before position `k` of the sequenced index. -/
def Container.insertAt (columns : Container) (k : Nat) (column : ColumnDescription) : Container :=
  columns.take k ++ column :: columns.drop k

/-- Modelled from the spec: `ColumnsDescription::add` is only declared.
Fails with `DuplicateName` if `column.name` already exists. If `after_column`
is empty, appends at the end of declaration order; if it names an existing
column, inserts immediately after it; if it names a nested-group prefix (no
column has that exact name, but columns named `after_column.*` exist), inserts
after the last member of that group; otherwise fails with `NotFound`. On any
failure the set is left unchanged. -/
def ColumnsDescription.add (columns : ColumnsDescription) (column : ColumnDescription)
    (after_column : String) : Outcome :=
  if ColumnsDescription.has columns column.name then
    { columns := columns, thrown := some ErrorKind.DuplicateName }
  else if after_column = "" then
    { columns := columns ++ [column], thrown := none }
  else
    match Container.find columns after_column with
    | some i => { columns := Container.insertAt columns (i + 1) column, thrown := none }
    | none =>
      match groupEnd columns after_column with
      | some k => { columns := Container.insertAt columns k column, thrown := none }
      | none => { columns := columns, thrown := some ErrorKind.NotFound }

/-- Modelled from the spec: `ColumnsDescription::remove` is only declared.
If an exact match exists, removes only that descriptor; else, if `column_name`
is a group prefix, removes every column whose name starts with `column_name.`;
else fails with `NotFound`, the set unchanged. -/
def ColumnsDescription.remove (columns : ColumnsDescription) (column_name : String) : Outcome :=
  match Container.find columns column_name with
  | some i => { columns := columns.eraseIdx i, thrown := none }
  | none =>
    if columns.any (fun c => inGroup c.name column_name) then
      { columns := columns.filter (fun c => !inGroup c.name column_name), thrown := none }
    else
      { columns := columns, thrown := some ErrorKind.NotFound }

/-- Modelled from the spec: `ColumnsDescription::rename` is only declared.
Changes the key of the column named `column_from` to `column_to`, preserving
its position. Fails `NotFound` if `column_from` is absent, `DuplicateName` if
`column_to` is already present; leaves the set unchanged on failure. -/
def ColumnsDescription.rename (columns : ColumnsDescription)
    (column_from column_to : String) : Outcome :=
  match Container.find columns column_from with
  | none => { columns := columns, thrown := some ErrorKind.NotFound }
  | some i =>
    if ColumnsDescription.has columns column_to then
      { columns := columns, thrown := some ErrorKind.DuplicateName }
    else
      match columns[i]? with
      | none => { columns := columns, thrown := some ErrorKind.NotFound }
      | some c => { columns := columns.set i { c with name := column_to }, thrown := none }

/-! ## Classified views -/

/-- One call of the mutation protocol, with its arguments. -/
inductive Call where
  | add (column : ColumnDescription) (after_column : String)
  | remove (column_name : String)
  | rename (column_from column_to : String)
  | modify (column_name : String) (f : ColumnDescription → ColumnDescription)

/-- The container after one call, whether the call returned or threw. -/
def Call.run (columns : ColumnsDescription) : Call → ColumnsDescription
  | Call.add column after_column => (ColumnsDescription.add columns column after_column).columns
  | Call.remove column_name => (ColumnsDescription.remove columns column_name).columns
  | Call.rename column_from column_to =>
    (ColumnsDescription.rename columns column_from column_to).columns
  | Call.modify column_name f => (ColumnsDescription.modify columns column_name f).columns

/-- The container after a sequence of calls, starting from `columns`. -/
def runCalls (columns : ColumnsDescription) (calls : List Call) : ColumnsDescription :=
  calls.foldl Call.run columns

/-! ## Sample descriptors -/

/-- An ordinary column with the given name and type. -/
def mkColumn (name type : String) : ColumnDescription :=
  { name := name, type := type }

/-- The mutator that sets the name to `new_name`. -/
def setName (new_name : String) (c : ColumnDescription) : ColumnDescription :=
  { c with name := new_name }

/-- The mutator that sets the comment to `text`. -/
def setComment (text : String) (c : ColumnDescription) : ColumnDescription :=
  { c with comment := text }

/-- The set `[a : UInt64, b : String]`. -/
def sampleAB : ColumnsDescription :=
  [mkColumn "a" "UInt64", mkColumn "b" "String"]

/-- The set `[a.x : Int32, a.y : Int32]`: the nested group `a`, no column `a`. -/
def sampleNested : ColumnsDescription :=
  [mkColumn "a.x" "Int32", mkColumn "a.y" "Int32"]

/-- The set `[id : UInt64, name : String]`. -/
def sampleIdName : ColumnsDescription :=
  [mkColumn "id" "UInt64", mkColumn "name" "String"]

/-- The set `[id : UInt64, age : UInt8, name : String]`. -/
def sampleIdAgeName : ColumnsDescription :=
  [mkColumn "id" "UInt64", mkColumn "age" "UInt8", mkColumn "name" "String"]

/-- The set `[a.x, b, a.y, c]`: the members of the group `a` are not adjacent. -/
def sampleSplitGroup : ColumnsDescription :=
  [mkColumn "a.x" "Int32", mkColumn "b" "String", mkColumn "a.y" "Int32",
   mkColumn "c" "String"]

/-- Structural comparison of two descriptors, field by field. -/
def structuralEq (x y : ColumnDescription) : Bool :=
  decide (x = y)

/-! ## Lemmas on the container -/

theorem find_eq_none_iff (s : Container) (key : String) :
    Container.find s key = none ↔ ∀ c ∈ s, c.name ≠ key := by
  induction s with
  | nil => simp [Container.find]
  | cons c rest ih =>
    by_cases h : c.name = key
    · simp [Container.find, h]
    · simp [Container.find, h, ih]

theorem find_split (pre : List ColumnDescription) (c : ColumnDescription)
    (post : List ColumnDescription) (key : String)
    (hpre : ∀ x ∈ pre, x.name ≠ key) (hc : c.name = key) :
    Container.find (pre ++ c :: post) key = some pre.length := by
  induction pre with
  | nil => simp [Container.find, hc]
  | cons p pre ih =>
    have hp : p.name ≠ key := hpre p (List.mem_cons_self _ _)
    have ih2 := ih (fun x hx => hpre x (List.mem_cons_of_mem _ hx))
    simp [Container.find, hp, ih2]

theorem find_some_split (s : Container) (key : String) (i : Nat)
    (h : Container.find s key = some i) :
    ∃ pre c post, s = pre ++ c :: post ∧ pre.length = i ∧ c.name = key ∧
      ∀ x ∈ pre, x.name ≠ key := by
  induction s generalizing i with
  | nil => simp [Container.find] at h
  | cons c rest ih =>
    by_cases hc : c.name = key
    · simp [Container.find, hc] at h
      exact ⟨[], c, rest, by simp, by simp [h], hc, by simp⟩
    · simp [Container.find, hc] at h
      obtain ⟨j, hj, hij⟩ := h
      obtain ⟨pre, d, post, hs, hlen, hd, hpre⟩ := ih j hj
      refine ⟨c :: pre, d, post, by simp [hs], by simp [hlen, hij], hd, ?_⟩
      intro x hx
      rcases List.mem_cons.mp hx with hx | hx
      · rw [hx]; exact hc
      · exact hpre x hx

theorem getElem?_split (pre : List ColumnDescription) (c : ColumnDescription)
    (post : List ColumnDescription) :
    (pre ++ c :: post)[pre.length]? = some c := by
  induction pre with
  | nil => simp
  | cons p pre ih => simpa using ih

theorem eraseIdx_split (pre : List ColumnDescription) (c : ColumnDescription)
    (post : List ColumnDescription) :
    (pre ++ c :: post).eraseIdx pre.length = pre ++ post := by
  induction pre with
  | nil => simp
  | cons p pre ih => simpa using ih

theorem set_split (pre : List ColumnDescription) (c d : ColumnDescription)
    (post : List ColumnDescription) :
    (pre ++ c :: post).set pre.length d = pre ++ d :: post := by
  induction pre with
  | nil => simp
  | cons p pre ih => simp

theorem insertAt_split (pre : List ColumnDescription) (c column : ColumnDescription)
    (post : List ColumnDescription) :
    Container.insertAt (pre ++ c :: post) (pre.length + 1) column
      = pre ++ c :: column :: post := by
  induction pre with
  | nil => simp [Container.insertAt]
  | cons p pre ih =>
    simp only [Container.insertAt] at ih
    simpa [Container.insertAt] using ih

theorem has_eq_false_iff (s : Container) (key : String) :
    ColumnsDescription.has s key = false ↔ key ∉ Container.names s := by
  have hnone : ColumnsDescription.has s key = false ↔ Container.find s key = none := by
    unfold ColumnsDescription.has
    cases Container.find s key <;> simp
  rw [hnone, find_eq_none_iff]
  simp only [Container.names, List.mem_map, not_exists, not_and]

theorem has_eq_true_iff (s : Container) (key : String) :
    ColumnsDescription.has s key = true ↔ ∃ i, Container.find s key = some i := by
  unfold ColumnsDescription.has
  rw [Option.isSome_iff_exists]

theorem names_append (a b : Container) :
    Container.names (a ++ b) = Container.names a ++ Container.names b := by
  simp [Container.names]

theorem names_cons (c : ColumnDescription) (b : Container) :
    Container.names (c :: b) = c.name :: Container.names b := by
  simp [Container.names]

/-- Replacing or inserting in the middle keeps the names unique when the new
name is fresh among the others. -/
theorem namesUnique_middle (pre post : Container) (d : ColumnDescription)
    (h : NamesUnique (pre ++ post)) (hd : d.name ∉ Container.names (pre ++ post)) :
    NamesUnique (pre ++ d :: post) := by
  unfold NamesUnique at *
  rw [names_append, names_cons]
  rw [names_append] at h hd
  exact List.nodup_middle.mpr (List.nodup_cons.mpr ⟨hd, h⟩)

theorem namesUnique_drop_middle (pre post : Container) (c : ColumnDescription)
    (h : NamesUnique (pre ++ c :: post)) :
    NamesUnique (pre ++ post) ∧ c.name ∉ Container.names (pre ++ post) := by
  unfold NamesUnique at *
  rw [names_append, names_cons] at h
  rw [names_append]
  have h2 := List.nodup_cons.mp (List.nodup_middle.mp h)
  exact ⟨h2.2, h2.1⟩

theorem namesUnique_sublist (a b : Container) (hab : List.Sublist a b)
    (h : NamesUnique b) : NamesUnique a := by
  unfold NamesUnique Container.names at *
  exact List.Nodup.sublist (List.Sublist.map _ hab) h

/-! ## Lemmas on `modify` -/

theorem modify_of_find_none (s : ColumnsDescription) (column_name : String)
    (f : ColumnDescription → ColumnDescription)
    (h : Container.find s column_name = none) :
    ColumnsDescription.modify s column_name f
      = { columns := s, thrown := some ErrorKind.NotFound, applied := [] } := by
  simp [ColumnsDescription.modify, h]

theorem modify_split (pre : List ColumnDescription) (c : ColumnDescription)
    (post : List ColumnDescription) (column_name : String)
    (f : ColumnDescription → ColumnDescription)
    (hpre : ∀ x ∈ pre, x.name ≠ column_name) (hc : c.name = column_name) :
    ColumnsDescription.modify (pre ++ c :: post) column_name f
      = if (pre ++ post).any (fun x => decide (x.name = (f c).name)) then
          { columns := pre ++ post, thrown := some ErrorKind.ImmutableKeyViolation,
            applied := [c] }
        else
          { columns := pre ++ f c :: post, thrown := none, applied := [c] } := by
  unfold ColumnsDescription.modify
  rw [find_split pre c post column_name hpre hc]
  unfold Container.modify
  simp only [getElem?_split, eraseIdx_split, set_split]
  by_cases hany : (pre ++ post).any (fun x => decide (x.name = (f c).name)) = true
  · simp only [hany, if_true]
  · simp only [hany, if_false]
    simp

theorem any_name_iff (l : List ColumnDescription) (key : String) :
    l.any (fun x => decide (x.name = key)) = true ↔ key ∈ Container.names l := by
  simp only [List.any_eq_true, decide_eq_true_eq, Container.names, List.mem_map]

theorem modify_keeps_unique (s : ColumnsDescription) (column_name : String)
    (f : ColumnDescription → ColumnDescription) (h : NamesUnique s) :
    NamesUnique (ColumnsDescription.modify s column_name f).columns := by
  cases hfind : Container.find s column_name with
  | none => rw [modify_of_find_none s column_name f hfind]; exact h
  | some i =>
    obtain ⟨pre, c, post, hs, _, hc, hpre⟩ := find_some_split s column_name i hfind
    subst hs
    rw [modify_split pre c post column_name f hpre hc]
    have hdrop := namesUnique_drop_middle pre post c h
    by_cases hany : (pre ++ post).any (fun x => decide (x.name = (f c).name)) = true
    · simp only [hany, if_true]
      exact hdrop.1
    · simp only [hany, if_false]
      apply namesUnique_middle pre post (f c) hdrop.1
      intro hmem
      exact hany ((any_name_iff _ _).mpr hmem)

/-! ## Lemmas on `add`, `remove` and `rename` -/

theorem find_lt_length (s : Container) (key : String) (i : Nat)
    (h : Container.find s key = some i) : i < s.length := by
  obtain ⟨pre, c, post, hs, hlen, _, _⟩ := find_some_split s key i h
  subst hs
  simp only [List.length_append, List.length_cons]
  omega

theorem groupEnd_eq_none_iff (s : Container) (group : String) :
    groupEnd s group = none ↔ ∀ c ∈ s, inGroup c.name group = false := by
  induction s with
  | nil => simp [groupEnd]
  | cons c rest ih =>
    cases hrest : groupEnd rest group with
    | some k =>
      have hne : ¬ ∀ x ∈ rest, inGroup x.name group = false := by
        intro hall
        rw [ih.mpr hall] at hrest
        cases hrest
      simp only [groupEnd, hrest, List.mem_cons, forall_eq_or_imp]
      constructor
      · intro h; cases h
      · intro h; exact absurd h.2 hne
    | none =>
      have hall := ih.mp hrest
      by_cases hc : inGroup c.name group = true
      · simp [groupEnd, hrest, hc]
      · simp only [Bool.not_eq_true] at hc
        simp [groupEnd, hrest, hc]
        exact hall

theorem groupEnd_le_length (s : Container) (group : String) (k : Nat)
    (h : groupEnd s group = some k) : k ≤ s.length := by
  induction s generalizing k with
  | nil => simp [groupEnd] at h
  | cons c rest ih =>
    cases hrest : groupEnd rest group with
    | some j =>
      simp only [groupEnd, hrest, Option.some.injEq] at h
      have := ih j hrest
      simp only [List.length_cons]
      omega
    | none =>
      by_cases hc : inGroup c.name group = true
      · simp only [groupEnd, hrest, hc, if_true, Option.some.injEq] at h
        simp only [List.length_cons]
        omega
      · simp [groupEnd, hrest, hc] at h

theorem groupEnd_split (pre : List ColumnDescription) (c : ColumnDescription)
    (post : List ColumnDescription) (group : String)
    (hc : inGroup c.name group = true)
    (hpost : ∀ x ∈ post, inGroup x.name group = false) :
    groupEnd (pre ++ c :: post) group = some (pre.length + 1) := by
  induction pre with
  | nil =>
    have hnone := (groupEnd_eq_none_iff post group).mpr hpost
    simp [groupEnd, hnone, hc]
  | cons p pre ih =>
    simp [groupEnd, ih]

theorem insertAt_sublist (s : Container) (k : Nat) (column : ColumnDescription) :
    List.Sublist s (Container.insertAt s k column) := by
  unfold Container.insertAt
  conv => lhs; rw [← List.take_append_drop k s]
  exact List.Sublist.append (List.Sublist.refl _) (List.sublist_cons_self _ _)

theorem insertAt_keeps_unique (s : Container) (k : Nat) (column : ColumnDescription)
    (h : NamesUnique s) (hnew : column.name ∉ Container.names s) :
    NamesUnique (Container.insertAt s k column) := by
  unfold Container.insertAt
  apply namesUnique_middle
  · rw [List.take_append_drop]; exact h
  · rw [List.take_append_drop]; exact hnew

theorem add_keeps_unique (s : ColumnsDescription) (column : ColumnDescription)
    (after_column : String) (h : NamesUnique s) :
    NamesUnique (ColumnsDescription.add s column after_column).columns := by
  unfold ColumnsDescription.add
  cases hhas : ColumnsDescription.has s column.name with
  | true => simpa using h
  | false =>
    have hnew := (has_eq_false_iff s column.name).mp hhas
    by_cases hempty : after_column = ""
    · simp only [hempty, if_true, Bool.false_eq_true, if_false]
      have := insertAt_keeps_unique s s.length column h hnew
      simpa [Container.insertAt] using this
    · simp only [hempty, if_false, Bool.false_eq_true]
      cases Container.find s after_column with
      | some i => exact insertAt_keeps_unique s (i + 1) column h hnew
      | none =>
        cases groupEnd s after_column with
        | some k => exact insertAt_keeps_unique s k column h hnew
        | none => exact h

theorem remove_sublist (s : ColumnsDescription) (column_name : String) :
    List.Sublist (ColumnsDescription.remove s column_name).columns s := by
  unfold ColumnsDescription.remove
  cases Container.find s column_name with
  | some i => exact List.eraseIdx_sublist s i
  | none =>
    by_cases hany : s.any (fun c => inGroup c.name column_name) = true
    · simp only [hany, if_true]
      exact List.filter_sublist s
    · simp only [hany, if_false]
      exact List.Sublist.refl s

theorem remove_keeps_unique (s : ColumnsDescription) (column_name : String)
    (h : NamesUnique s) :
    NamesUnique (ColumnsDescription.remove s column_name).columns :=
  namesUnique_sublist _ _ (remove_sublist s column_name) h

theorem rename_split (pre : List ColumnDescription) (c : ColumnDescription)
    (post : List ColumnDescription) (column_from column_to : String)
    (hpre : ∀ x ∈ pre, x.name ≠ column_from) (hc : c.name = column_from)
    (hto : ColumnsDescription.has (pre ++ c :: post) column_to = false) :
    ColumnsDescription.rename (pre ++ c :: post) column_from column_to
      = { columns := pre ++ { c with name := column_to } :: post, thrown := none } := by
  unfold ColumnsDescription.rename
  rw [find_split pre c post column_from hpre hc]
  simp only [hto, Bool.false_eq_true, if_false, getElem?_split, set_split]

theorem rename_keeps_unique (s : ColumnsDescription) (column_from column_to : String)
    (h : NamesUnique s) :
    NamesUnique (ColumnsDescription.rename s column_from column_to).columns := by
  cases hfind : Container.find s column_from with
  | none => simp only [ColumnsDescription.rename, hfind]; exact h
  | some i =>
    cases hhas : ColumnsDescription.has s column_to with
    | true => simp only [ColumnsDescription.rename, hfind, hhas, if_true]; exact h
    | false =>
      obtain ⟨pre, c, post, hs, _, hc, hpre⟩ := find_some_split s column_from i hfind
      subst hs
      rw [rename_split pre c post column_from column_to hpre hc hhas]
      have hdrop := namesUnique_drop_middle pre post c h
      have hnew := (has_eq_false_iff _ column_to).mp hhas
      apply namesUnique_middle pre post _ hdrop.1
      intro hmem
      apply hnew
      rw [names_append, names_cons]
      rw [names_append] at hmem
      rcases List.mem_append.mp hmem with hm | hm
      · exact List.mem_append_left _ hm
      · exact List.mem_append_right _ (List.mem_cons_of_mem _ hm)

theorem run_keeps_unique (s : ColumnsDescription) (call : Call) (h : NamesUnique s) :
    NamesUnique (Call.run s call) := by
  cases call with
  | add column after_column => exact add_keeps_unique s column after_column h
  | remove column_name => exact remove_keeps_unique s column_name h
  | rename column_from column_to => exact rename_keeps_unique s column_from column_to h
  | modify column_name f => exact modify_keeps_unique s column_name f h

theorem runCalls_keeps_unique (calls : List Call) (s : ColumnsDescription)
    (h : NamesUnique s) : NamesUnique (runCalls s calls) := by
  induction calls generalizing s with
  | nil => exact h
  | cons call rest ih => exact ih (Call.run s call) (run_keeps_unique s call h)

/-! ## Lemmas on `operator==` -/

theorem stdEqual_iff (deq : ColumnDescription → ColumnDescription → Bool)
    (a b : List ColumnDescription) (hlen : a.length = b.length) :
    stdEqual deq a b = true ↔
      ∀ (i : Nat) (x y : ColumnDescription), a[i]? = some x → b[i]? = some y → deq x y = true := by
  induction a generalizing b with
  | nil => simp [stdEqual]
  | cons x xs ih =>
    cases b with
    | nil => simp at hlen
    | cons y ys =>
      have hlen2 : xs.length = ys.length := by simpa using hlen
      simp only [stdEqual, Bool.and_eq_true, ih ys hlen2]
      constructor
      · rintro ⟨hxy, hrest⟩ i u v hu hv
        cases i with
        | zero =>
          simp only [List.getElem?_cons_zero, Option.some.injEq] at hu hv
          rw [← hu, ← hv]; exact hxy
        | succ j =>
          simp only [List.getElem?_cons_succ] at hu hv
          exact hrest j u v hu hv
      · intro h
        refine ⟨h 0 x y (by simp) (by simp), ?_⟩
        intro i u v hu hv
        exact h (i + 1) u v (by simpa using hu) (by simpa using hv)

theorem eq_self (deq : ColumnDescription → ColumnDescription → Bool)
    (hrefl : ∀ c, deq c c = true) (s : ColumnsDescription) :
    ColumnsDescription.eq deq s s = true := by
  unfold ColumnsDescription.eq
  simp only [decide_True, Bool.true_and]
  rw [stdEqual_iff deq s s rfl]
  intro i x y hx hy
  rw [hx] at hy
  cases hy
  exact hrefl x

theorem eq_false_of_length_ne (deq : ColumnDescription → ColumnDescription → Bool)
    (a b : ColumnsDescription) (h : a.length ≠ b.length) :
    ColumnsDescription.eq deq a b = false := by
  simp [ColumnsDescription.eq, h]

/-! ## The `modify` protocol -/

/-- C1, as stated, fails: on `[a, b]` the call `modify("a", f)` with `f` setting
the name to `b` throws ("column name cannot be changed"), and the container it
leaves behind is `[b]`: the descriptor `a` has been erased, so the set is not
equal by `==` to the set before the call, whatever the element comparison. -/
theorem modify_failure_erases_descriptor :
    (ColumnsDescription.modify sampleAB "a" (setName "b")).thrown
        = some ErrorKind.ImmutableKeyViolation
      ∧ (ColumnsDescription.modify sampleAB "a" (setName "b")).columns
        = [mkColumn "b" "String"]
      ∧ (ColumnsDescription.modify sampleAB "a" (setName "b")).columns ≠ sampleAB
      ∧ ∀ deq : ColumnDescription → ColumnDescription → Bool,
          ColumnsDescription.eq deq
            (ColumnsDescription.modify sampleAB "a" (setName "b")).columns sampleAB = false := by
  refine ⟨by decide, by decide, by decide, ?_⟩
  intro deq
  apply eq_false_of_length_ne
  decide

/-- C1, amended: a call `modify(name, f)` that fails either did not find the
name, and then the set is unchanged (equal by `==` to the set before the call
for every reflexive element comparison); or it found the descriptor `c` named
`name`, and then the set after the call is the set before with `c` erased,
every other descriptor still stored, unaltered and in the same order. -/
theorem modify_failure_state (s : ColumnsDescription) (column_name : String)
    (f : ColumnDescription → ColumnDescription)
    (hfail : (ColumnsDescription.modify s column_name f).thrown ≠ none) :
    ((ColumnsDescription.modify s column_name f).thrown = some ErrorKind.NotFound
        ∧ ColumnsDescription.has s column_name = false
        ∧ (ColumnsDescription.modify s column_name f).columns = s
        ∧ ∀ deq : ColumnDescription → ColumnDescription → Bool, (∀ c, deq c c = true) →
            ColumnsDescription.eq deq (ColumnsDescription.modify s column_name f).columns s
              = true)
      ∨ ((ColumnsDescription.modify s column_name f).thrown
            = some ErrorKind.ImmutableKeyViolation
        ∧ ∃ pre c post, s = pre ++ c :: post ∧ c.name = column_name
            ∧ (ColumnsDescription.modify s column_name f).columns = pre ++ post
            ∧ (ColumnsDescription.modify s column_name f).applied = [c]) := by
  cases hfind : Container.find s column_name with
  | none =>
    left
    rw [modify_of_find_none s column_name f hfind]
    refine ⟨rfl, ?_, rfl, ?_⟩
    · simp [ColumnsDescription.has, hfind]
    · intro deq hrefl
      exact eq_self deq hrefl s
  | some i =>
    right
    obtain ⟨pre, c, post, hs, _, hc, hpre⟩ := find_some_split s column_name i hfind
    subst hs
    rw [modify_split pre c post column_name f hpre hc] at hfail ⊢
    by_cases hany : (pre ++ post).any (fun x => decide (x.name = (f c).name)) = true
    · rw [if_pos hany]
      exact ⟨rfl, pre, c, post, rfl, hc, rfl, rfl⟩
    · rw [if_neg hany] at hfail
      exact absurd rfl hfail

/-- Witness for C1, amended: the failing call on `[a, b]`. -/
theorem modify_failure_state_witness :
    (ColumnsDescription.modify sampleAB "a" (setName "b")).thrown ≠ none
      ∧ (((ColumnsDescription.modify sampleAB "a" (setName "b")).thrown
              = some ErrorKind.NotFound
            ∧ ColumnsDescription.has sampleAB "a" = false
            ∧ (ColumnsDescription.modify sampleAB "a" (setName "b")).columns = sampleAB
            ∧ ∀ deq : ColumnDescription → ColumnDescription → Bool,
                (∀ c, deq c c = true) →
                ColumnsDescription.eq deq
                  (ColumnsDescription.modify sampleAB "a" (setName "b")).columns sampleAB
                  = true)
          ∨ ((ColumnsDescription.modify sampleAB "a" (setName "b")).thrown
                = some ErrorKind.ImmutableKeyViolation
            ∧ ∃ pre c post, sampleAB = pre ++ c :: post ∧ c.name = "a"
                ∧ (ColumnsDescription.modify sampleAB "a" (setName "b")).columns
                    = pre ++ post
                ∧ (ColumnsDescription.modify sampleAB "a" (setName "b")).applied = [c])) :=
  ⟨by decide, modify_failure_state sampleAB "a" (setName "b") (by decide)⟩

/-- C2, evaluated on the code: on `[a, b]` the call `modify("a", f)` with `f`
setting the name to `z`, a name no other column has, returns normally and the
column is stored under the name `z` at its old position. -/
theorem modify_accepts_fresh_name :
    ColumnsDescription.modify sampleAB "a" (setName "z")
      = { columns := [mkColumn "z" "UInt64", mkColumn "b" "String"],
          thrown := none,
          applied := [mkColumn "a" "UInt64"] } := by
  decide

/-- C3: in every set reachable from the empty set by a sequence of `add`,
`remove`, `rename` and `modify` calls, successful or failed, with arbitrary
mutators, no two stored descriptors have equal names. -/
theorem names_unique_reachable (calls : List Call) :
    NamesUnique (runCalls [] calls) :=
  runCalls_keeps_unique calls [] List.nodup_nil

/-- C4: when the set stores a column named `column_name` and `f` leaves the
name of that column unchanged, `modify(column_name, f)` returns normally and
the sequence after the call is the sequence before with exactly the descriptor
`c` named `column_name` replaced by `f c` at the same position; the number of
columns, the order and every other descriptor are unchanged. -/
theorem modify_same_name_replaces (s : ColumnsDescription) (column_name : String)
    (f : ColumnDescription → ColumnDescription)
    (huniq : NamesUnique s)
    (hhas : ColumnsDescription.has s column_name = true)
    (hname : ∀ c ∈ s, c.name = column_name → (f c).name = column_name) :
    (ColumnsDescription.modify s column_name f).thrown = none
      ∧ (ColumnsDescription.modify s column_name f).columns.length = s.length
      ∧ ∃ pre c post, s = pre ++ c :: post ∧ c.name = column_name
          ∧ (ColumnsDescription.modify s column_name f).columns = pre ++ f c :: post
          ∧ (ColumnsDescription.modify s column_name f).applied = [c] := by
  obtain ⟨i, hfind⟩ := (has_eq_true_iff s column_name).mp hhas
  obtain ⟨pre, c, post, hs, _, hc, hpre⟩ := find_some_split s column_name i hfind
  subst hs
  have hfc : (f c).name = column_name := hname c (by simp) hc
  have hdrop := namesUnique_drop_middle pre post c huniq
  have hany : ¬ (pre ++ post).any (fun x => decide (x.name = (f c).name)) = true := by
    intro h
    have hmem := (any_name_iff _ _).mp h
    rw [hfc, ← hc] at hmem
    exact hdrop.2 hmem
  rw [modify_split pre c post column_name f hpre hc, if_neg hany]
  refine ⟨rfl, by simp, pre, c, post, rfl, hc, rfl, rfl⟩

/-- Witness for C4: setting the comment of `b` in `[a, b]`. -/
theorem modify_same_name_replaces_witness :
    NamesUnique sampleAB
      ∧ ColumnsDescription.has sampleAB "b" = true
      ∧ (∀ c ∈ sampleAB, c.name = "b" → (setComment "note" c).name = "b")
      ∧ ((ColumnsDescription.modify sampleAB "b" (setComment "note")).thrown = none
        ∧ (ColumnsDescription.modify sampleAB "b" (setComment "note")).columns.length
            = sampleAB.length
        ∧ ∃ pre c post, sampleAB = pre ++ c :: post ∧ c.name = "b"
            ∧ (ColumnsDescription.modify sampleAB "b" (setComment "note")).columns
                = pre ++ setComment "note" c :: post
            ∧ (ColumnsDescription.modify sampleAB "b" (setComment "note")).applied = [c]) :=
  ⟨by decide, by decide, fun _ _ h => h,
    modify_same_name_replaces sampleAB "b" (setComment "note") (by decide) (by decide)
      (fun _ _ h => h)⟩

/-- C5: when `column_name` is not the exact name of a stored column (also when
it is only the prefix of a nested group), `modify(column_name, f)` throws
"Cannot find column", `f` has not been applied to anything, and the set is
unchanged. -/
theorem modify_absent_name (s : ColumnsDescription) (column_name : String)
    (f : ColumnDescription → ColumnDescription)
    (habsent : ColumnsDescription.has s column_name = false) :
    ColumnsDescription.modify s column_name f
      = { columns := s, thrown := some ErrorKind.NotFound, applied := [] } := by
  apply modify_of_find_none
  unfold ColumnsDescription.has at habsent
  cases hfind : Container.find s column_name with
  | none => rfl
  | some i => simp [hfind] at habsent

/-- Witness for C5: `a` is a group prefix in `[a.x, a.y]`, not a column. -/
theorem modify_absent_name_witness :
    ColumnsDescription.has sampleNested "a" = false
      ∧ ColumnsDescription.hasNested sampleNested "a" = true
      ∧ ColumnsDescription.modify sampleNested "a" (setComment "note")
          = { columns := sampleNested, thrown := some ErrorKind.NotFound, applied := [] } :=
  ⟨by decide, by decide,
    modify_absent_name sampleNested "a" (setComment "note") (by decide)⟩

/-! ## Equality -/

/-- C10: `a == b` holds exactly when the two sets have the same number of
columns and the descriptors at every position of the declaration order are
equal; `a != b` holds exactly when `a == b` does not; two sets holding two
unequal descriptors in opposite orders are not equal. -/
theorem eq_iff_same_sequence (deq : ColumnDescription → ColumnDescription → Bool)
    (a b : ColumnsDescription) :
    (ColumnsDescription.eq deq a b = true ↔
        a.length = b.length
          ∧ ∀ (i : Nat) (x y : ColumnDescription),
              a[i]? = some x → b[i]? = some y → deq x y = true)
      ∧ (ColumnsDescription.ne deq a b = true ↔ ¬ ColumnsDescription.eq deq a b = true)
      ∧ ∀ x y : ColumnDescription, deq x y = false →
          ColumnsDescription.eq deq [x, y] [y, x] = false := by
  refine ⟨?_, ?_, ?_⟩
  · unfold ColumnsDescription.eq
    rw [Bool.and_eq_true, decide_eq_true_eq]
    constructor
    · rintro ⟨hlen, heq⟩
      exact ⟨hlen, (stdEqual_iff deq a b hlen).mp heq⟩
    · rintro ⟨hlen, heq⟩
      exact ⟨hlen, (stdEqual_iff deq a b hlen).mpr heq⟩
  · unfold ColumnsDescription.ne
    simp
  · intro x y hxy
    simp [ColumnsDescription.eq, stdEqual, hxy]

/-- Witness for C10: with the structural comparison of descriptors, `[a, b]`
and `[b, a]` are not equal, and `[a, b]` is equal to itself. -/
theorem eq_iff_same_sequence_witness :
    ColumnsDescription.eq structuralEq sampleAB
        [mkColumn "b" "String", mkColumn "a" "UInt64"] = false
      ∧ ColumnsDescription.ne structuralEq sampleAB
        [mkColumn "b" "String", mkColumn "a" "UInt64"] = true
      ∧ ColumnsDescription.eq structuralEq sampleAB sampleAB = true :=
  ⟨(eq_iff_same_sequence structuralEq sampleAB sampleAB).2.2
      (mkColumn "a" "UInt64") (mkColumn "b" "String") (by decide),
    by decide, by decide⟩

/-! ## `add` and `remove` -/

/-- C6: when the name of `column` is not yet stored, `add(column, after_column)`
appends `column` when `after_column` is empty, inserts it immediately after the
column named `after_column` when there is one, and immediately after the last
column whose name starts with `after_column.` when `after_column` is only a
nested-group prefix; whenever the call succeeds the result is the old sequence
with `column` inserted at one position, so the old columns keep their order. -/
theorem add_inserts_at_position (s : ColumnsDescription) (column : ColumnDescription)
    (after_column : String)
    (hnew : ColumnsDescription.has s column.name = false) :
    (after_column = "" →
        ColumnsDescription.add s column after_column
          = { columns := s ++ [column], thrown := none })
      ∧ (∀ pre c post, after_column ≠ "" → s = pre ++ c :: post →
          c.name = after_column → (∀ x ∈ pre, x.name ≠ after_column) →
          ColumnsDescription.add s column after_column
            = { columns := pre ++ c :: column :: post, thrown := none })
      ∧ (∀ pre c post, after_column ≠ "" →
          ColumnsDescription.has s after_column = false → s = pre ++ c :: post →
          inGroup c.name after_column = true →
          (∀ x ∈ post, inGroup x.name after_column = false) →
          ColumnsDescription.add s column after_column
            = { columns := pre ++ c :: column :: post, thrown := none })
      ∧ ((ColumnsDescription.add s column after_column).thrown = none →
          ∃ k, k ≤ s.length
            ∧ (ColumnsDescription.add s column after_column).columns
                = s.take k ++ column :: s.drop k) := by
  refine ⟨?_, ?_, ?_, ?_⟩
  · intro hempty
    simp [ColumnsDescription.add, hnew, hempty]
  · intro pre c post hne hs hc hpre
    subst hs
    simp only [ColumnsDescription.add, hnew, Bool.false_eq_true, if_false, hne,
      find_split pre c post after_column hpre hc, insertAt_split]
  · intro pre c post hne habsent hs hc hpost
    subst hs
    have hfind : Container.find (pre ++ c :: post) after_column = none := by
      unfold ColumnsDescription.has at habsent
      cases h : Container.find (pre ++ c :: post) after_column with
      | none => rfl
      | some i => simp [h] at habsent
    simp only [ColumnsDescription.add, hnew, Bool.false_eq_true, if_false, hne, hfind,
      groupEnd_split pre c post after_column hc hpost, insertAt_split]
  · intro hok
    unfold ColumnsDescription.add at hok ⊢
    simp only [hnew, Bool.false_eq_true, if_false] at hok ⊢
    by_cases hempty : after_column = ""
    · refine ⟨s.length, Nat.le_refl _, ?_⟩
      simp [hempty]
    · simp only [hempty, if_false] at hok ⊢
      cases hfind : Container.find s after_column with
      | some i =>
        have hlt := find_lt_length s after_column i hfind
        exact ⟨i + 1, hlt, rfl⟩
      | none =>
        cases hgrp : groupEnd s after_column with
        | some k => exact ⟨k, groupEnd_le_length s after_column k hgrp, rfl⟩
        | none => simp [hfind, hgrp] at hok

/-- Witness for C6: `[id]` plus `name`, then `age` after `id`; then an insertion
after a group whose members are not adjacent. -/
theorem add_inserts_at_position_witness :
    ColumnsDescription.has sampleIdName "age" = false
      ∧ ColumnsDescription.add [mkColumn "id" "UInt64"] (mkColumn "name" "String") ""
          = { columns := sampleIdName, thrown := none }
      ∧ ColumnsDescription.add sampleIdName (mkColumn "age" "UInt8") "id"
          = { columns := [mkColumn "id" "UInt64", mkColumn "age" "UInt8",
                mkColumn "name" "String"],
              thrown := none }
      ∧ ColumnsDescription.add sampleSplitGroup (mkColumn "age" "UInt8") "a"
          = { columns := [mkColumn "a.x" "Int32", mkColumn "b" "String",
                mkColumn "a.y" "Int32", mkColumn "age" "UInt8", mkColumn "c" "String"],
              thrown := none } :=
  ⟨by decide,
    (add_inserts_at_position [mkColumn "id" "UInt64"] (mkColumn "name" "String") ""
      (by decide)).1 rfl,
    (add_inserts_at_position sampleIdName (mkColumn "age" "UInt8") "id"
      (by decide)).2.1 [] (mkColumn "id" "UInt64") [mkColumn "name" "String"]
      (by decide) rfl rfl (by simp),
    (add_inserts_at_position sampleSplitGroup (mkColumn "age" "UInt8") "a"
      (by decide)).2.2.1 [mkColumn "a.x" "Int32", mkColumn "b" "String"]
      (mkColumn "a.y" "Int32") [mkColumn "c" "String"]
      (by decide) (by decide) rfl (by decide) (by decide)⟩

/-- C7: if a column with exactly the name `column_name` is stored,
`remove(column_name)` deletes that descriptor and no other; otherwise, if some
stored name starts with `column_name.`, it deletes exactly the columns whose
names start with `column_name.`, wherever they are; otherwise it fails with
`NotFound` and the set is unchanged. The remaining columns keep their relative
order. -/
theorem remove_exact_or_group (s : ColumnsDescription) (column_name : String) :
    (∀ pre c post, s = pre ++ c :: post → c.name = column_name →
        (∀ x ∈ pre, x.name ≠ column_name) →
        ColumnsDescription.remove s column_name
          = { columns := pre ++ post, thrown := none })
      ∧ (ColumnsDescription.has s column_name = false →
          (∃ c ∈ s, inGroup c.name column_name = true) →
          ColumnsDescription.remove s column_name
            = { columns := s.filter (fun c => !inGroup c.name column_name),
                thrown := none })
      ∧ (ColumnsDescription.has s column_name = false →
          (∀ c ∈ s, inGroup c.name column_name = false) →
          ColumnsDescription.remove s column_name
            = { columns := s, thrown := some ErrorKind.NotFound })
      ∧ List.Sublist (ColumnsDescription.remove s column_name).columns s := by
  have hnone : ColumnsDescription.has s column_name = false →
      Container.find s column_name = none := by
    intro habsent
    unfold ColumnsDescription.has at habsent
    cases h : Container.find s column_name with
    | none => rfl
    | some i => simp [h] at habsent
  refine ⟨?_, ?_, ?_, remove_sublist s column_name⟩
  · intro pre c post hs hc hpre
    subst hs
    simp only [ColumnsDescription.remove, find_split pre c post column_name hpre hc,
      eraseIdx_split]
  · intro habsent hgroup
    have hany : s.any (fun c => inGroup c.name column_name) = true := by
      rw [List.any_eq_true]
      exact hgroup
    simp only [ColumnsDescription.remove, hnone habsent]
    rw [if_pos hany]
  · intro habsent hgroup
    have hany : ¬ s.any (fun c => inGroup c.name column_name) = true := by
      rw [List.any_eq_true]
      rintro ⟨c, hc, hin⟩
      rw [hgroup c hc] at hin
      cases hin
    simp only [ColumnsDescription.remove, hnone habsent]
    rw [if_neg hany]

/-- Witness for C7: removal of a column, of one leaf of a group, of a whole group
with members that are not adjacent, and of a name that is not there. -/
theorem remove_exact_or_group_witness :
    ColumnsDescription.remove sampleIdAgeName "id"
        = { columns := [mkColumn "age" "UInt8", mkColumn "name" "String"], thrown := none }
      ∧ ColumnsDescription.remove sampleNested "a.x"
        = { columns := [mkColumn "a.y" "Int32"], thrown := none }
      ∧ ColumnsDescription.remove sampleSplitGroup "a"
        = { columns := sampleSplitGroup.filter (fun c => !inGroup c.name "a"),
            thrown := none }
      ∧ sampleSplitGroup.filter (fun c => !inGroup c.name "a")
        = [mkColumn "b" "String", mkColumn "c" "String"]
      ∧ ColumnsDescription.remove sampleIdAgeName "missing"
        = { columns := sampleIdAgeName, thrown := some ErrorKind.NotFound } :=
  ⟨(remove_exact_or_group sampleIdAgeName "id").1 []
      (mkColumn "id" "UInt64") [mkColumn "age" "UInt8", mkColumn "name" "String"]
      rfl rfl (by simp),
    (remove_exact_or_group sampleNested "a.x").1 []
      (mkColumn "a.x" "Int32") [mkColumn "a.y" "Int32"] rfl rfl (by simp),
    (remove_exact_or_group sampleSplitGroup "a").2.1 (by decide)
      ⟨mkColumn "a.x" "Int32", by decide, by decide⟩,
    by decide,
    (remove_exact_or_group sampleIdAgeName "missing").2.2.1 (by decide) (by decide)⟩

/-! ## Classified views -/

end DB
